import Mathlib

/-!
Shallow embedding of the `endian_codec` crate: the primitive codec table of
`src/lib.rs` (per-width `to_le_bytes` / `to_be_bytes` / `from_le_bytes` /
`from_be_bytes` copies with `copy_from_slice` panic semantics) and the
field-walking codecs generated by `endian_serde_derive/src/lib.rs`
(`bytes_size` for packed sizes, `serde_fields` for the offset walker that
slices `bytes[beg..end]` per field in declaration order).

Machine integers are modelled by their bit pattern: a `w`-byte primitive value
is a `Nat` below `256^w` (a signed integer is represented by its
two's-complement pattern, which is what `to_le_bytes`/`to_be_bytes` emit).
Byte buffers are `List Nat`. A Rust panic (failed `copy_from_slice` length
check or out-of-bounds slice index) is `none`; `some buf` is the buffer after
a successful call.
-/

namespace EndianCodec

/-- The `Endian` enum of the derive crate: `Big`, `Little`, `Mixed`, `Native`. -/
inductive Endian where
  | big
  | little
  | mixed
  | native
deriving DecidableEq, Repr

mutual
/-- A schema type: a primitive of byte width `w` (`u8/i8/u16/.../i128`),
a fixed byte array `[u8; n]`, or a derived struct with an ordered field list.
Each field carries its type and the optional `#[endian = ...]` attribute. -/
inductive TypeRef where
  | prim (w : Nat)
  | array (n : Nat)
  | composite (fields : Fields)
deriving DecidableEq, Repr

inductive Fields where
  | nil
  | cons (ty : TypeRef) (annot : Option Endian) (rest : Fields)
deriving DecidableEq, Repr
end

mutual
/-- A runtime value shaped like a `TypeRef`: a primitive bit pattern, the
contents of a byte array, or a struct's field values in declaration order. -/
inductive Value where
  | prim (v : Nat)
  | bytes (bs : List Nat)
  | record (vs : Values)
deriving DecidableEq, Repr

inductive Values where
  | nil
  | cons (v : Value) (rest : Values)
deriving DecidableEq, Repr
end

/-- Rust `<uN/iN>::to_le_bytes` on the bit pattern: least significant byte
first, exactly `w` bytes. -/
def toLeBytes : Nat → Nat → List Nat
  | 0, _ => []
  | w + 1, v => v % 256 :: toLeBytes w (v / 256)

/-- Rust `<uN/iN>::to_be_bytes`: most significant byte first. -/
def toBeBytes (w v : Nat) : List Nat :=
  (toLeBytes w v).reverse

/-- Rust `<uN/iN>::from_le_bytes` on a byte list, as a bit pattern. -/
def fromLeBytes : List Nat → Nat
  | [] => 0
  | b :: bs => b + 256 * fromLeBytes bs

/-- Rust `<uN/iN>::from_be_bytes`. -/
def fromBeBytes (bs : List Nat) : Nat :=
  fromLeBytes bs.reverse

mutual
/-- `PACKED_LEN` / `BYTES_LEN`: the constant from the primitive table
(`impl_codec_for_primitives!` / `impl_codec_for_array!`) and, for structs,
the sum `0 + field₁ + field₂ + ...` generated by `bytes_size`. -/
def packedSize : TypeRef → Nat
  | .prim w => w
  | .array n => n
  | .composite fs => sizeFields fs

def sizeFields : Fields → Nat
  | .nil => 0
  | .cons t _ rest => packedSize t + sizeFields rest
end

/-- The per-field order resolution of `serde_fields`: in a Little or Big
derive every field uses that order and the attribute is ignored; in a Mixed
derive an explicit `le`/`be` attribute is used verbatim, an attribute naming
`Mixed` or `Native` hits `unimplemented!()`, and an omitted attribute
dispatches to the field type's own Mixed codec. A `Native` derive is itself
`unimplemented!()`. -/
def eff : Endian → Option Endian → Option Endian
  | .little, _ => some .little
  | .big, _ => some .big
  | .native, _ => none
  | .mixed, some .little => some .little
  | .mixed, some .big => some .big
  | .mixed, some .mixed => none
  | .mixed, some .native => none
  | .mixed, none => some .mixed

mutual
/-- Well-typedness of a value for a schema type: primitive bit patterns fit
in `w` bytes, array contents are `n` genuine bytes, records match the field
list pointwise. -/
def valueFits : TypeRef → Value → Bool
  | .prim w, .prim v => decide (v < 256 ^ w)
  | .array n, .bytes bs => bs.length == n && bs.all (fun b => b < 256)
  | .composite fs, .record vs => valuesFit fs vs
  | _, _ => false

def valuesFit : Fields → Values → Bool
  | .nil, .nil => true
  | .cons t _ fs, .cons v vs => valueFits t v && valuesFit fs vs
  | _, _ => false
end

mutual
/-- Whether the Mixed-mode code generated for a type compiles: `src/lib.rs`
implements `EncodeME`/`DecodeME` only for `u8` among the primitives (every
byte array has them, and an annotated `le`/`be` field uses the LE/BE traits
instead, which every supported type has); a `Mixed`/`Native` attribute is
`unimplemented!()` in `serde_fields`. -/
def encodableME : TypeRef → Bool
  | .prim w => w == 1
  | .array _ => true
  | .composite fs => fieldsEncodableME fs

def fieldsEncodableME : Fields → Bool
  | .nil => true
  | .cons t a rest =>
    (match a with
     | some .little => true
     | some .big => true
     | some .mixed => false
     | some .native => false
     | none => encodableME t) && fieldsEncodableME rest
end

/-- Overwrite `dest[o .. o + src.length)` with `src`: the effect of
`copy_from_slice` through the mutable subslice `bytes[beg..end]`. -/
def writeRange (dest : List Nat) (o : Nat) (src : List Nat) : List Nat :=
  dest.take o ++ src ++ dest.drop (o + src.length)

mutual
/-- `encode e t v dest`: run the encoder of mode `e` for type `t` on value
`v` with destination buffer `dest`; `none` is a panic (or, for Mixed mode on
a type with no ME impl, code that does not compile).

* primitive: `bytes.copy_from_slice(&self.to_le_bytes())` (resp. `be`);
  `copy_from_slice` panics unless `dest.length = w`. Mixed exists only for
  the 1-byte `u8` and copies `to_be_bytes`.
* array: `bytes.copy_from_slice(self)` in all three modes.
* struct: the `serde_fields` walker: for each field in declaration order
  slice `bytes[beg .. beg + BYTES_LEN]` (an out-of-range end index panics)
  and invoke the field's codec under the resolved order, then advance. -/
def encode : Endian → TypeRef → Value → List Nat → Option (List Nat)
  | e, .prim w, .prim v, dest =>
    match e with
    | .little => if dest.length = w then some (toLeBytes w v) else none
    | .big => if dest.length = w then some (toBeBytes w v) else none
    | .mixed =>
      if w = 1 then
        if dest.length = w then some (toBeBytes w v) else none
      else none
    | .native => none
  | e, .array _, .bytes bs, dest =>
    match e with
    | .native => none
    | _ => if dest.length = bs.length then some bs else none
  | e, .composite fs, .record vs, dest =>
    match e with
    | .native => none
    | _ => encodeFields e fs vs dest 0
  | _, _, _, _ => none

def encodeFields : Endian → Fields → Values → List Nat → Nat → Option (List Nat)
  | _, .nil, .nil, dest, _ => some dest
  | e, .cons t a fs, .cons v vs, dest, o =>
    match eff e a with
    | none => none
    | some e2 =>
      if o + packedSize t ≤ dest.length then
        match encode e2 t v ((dest.drop o).take (packedSize t)) with
        | some enc => encodeFields e fs vs (writeRange dest o enc) (o + packedSize t)
        | none => none
      else none
  | _, _, _, _, _ => none
end

mutual
/-- `decode e t src`: the decoder of mode `e` for type `t` on source slice
`src`; `none` is a panic (or Mixed-mode code that does not compile).

* primitive: `arr.copy_from_slice(&bytes); from_le_bytes(arr)` (resp. `be`);
  panics unless `src.length = w`. Mixed exists only for `u8` and uses
  `from_le_bytes`.
* array: verbatim copy in all three modes.
* struct: each field reads `bytes[beg .. beg + BYTES_LEN]` under its
  resolved order, in declaration order. -/
def decode : Endian → TypeRef → List Nat → Option Value
  | e, .prim w, src =>
    match e with
    | .little => if src.length = w then some (.prim (fromLeBytes src)) else none
    | .big => if src.length = w then some (.prim (fromBeBytes src)) else none
    | .mixed =>
      if w = 1 then
        if src.length = w then some (.prim (fromLeBytes src)) else none
      else none
    | .native => none
  | e, .array n, src =>
    match e with
    | .native => none
    | _ => if src.length = n then some (.bytes src) else none
  | e, .composite fs, src =>
    match e with
    | .native => none
    | _ => Option.map .record (decodeFields e fs src 0)

def decodeFields : Endian → Fields → List Nat → Nat → Option Values
  | _, .nil, _, _ => some .nil
  | e, .cons t a fs, src, o =>
    match eff e a with
    | none => none
    | some e2 =>
      if o + packedSize t ≤ src.length then
        match decode e2 t ((src.drop o).take (packedSize t)) with
        | some v => Option.map (.cons v) (decodeFields e fs src (o + packedSize t))
        | none => none
      else none
end

mutual
/-- Canonical buffer-free encoding: the bytes a value serializes to,
independent of any destination buffer (per-field encodings concatenated in
declaration order). Used to characterise `encode`. -/
def encBytes : Endian → TypeRef → Value → Option (List Nat)
  | e, .prim w, .prim v =>
    match e with
    | .little => some (toLeBytes w v)
    | .big => some (toBeBytes w v)
    | .mixed => if w = 1 then some (toBeBytes w v) else none
    | .native => none
  | e, .array n, .bytes bs =>
    match e with
    | .native => none
    | _ => if bs.length = n then some bs else none
  | e, .composite fs, .record vs =>
    match e with
    | .native => none
    | _ => encsBytes e fs vs
  | _, _, _ => none

def encsBytes : Endian → Fields → Values → Option (List Nat)
  | _, .nil, .nil => some []
  | e, .cons t a fs, .cons v vs =>
    match eff e a with
    | none => none
    | some e2 =>
      match encBytes e2 t v with
      | none => none
      | some bs =>
        match encsBytes e fs vs with
        | none => none
        | some rest => some (bs ++ rest)
  | _, _, _ => none
end

/-- The `[beg, end)` byte ranges `serde_fields` computes: `beg_offset`
starts at the running offset, each field gets
`[beg_offset, beg_offset + BYTES_LEN)`, and `beg_offset` advances by the
field's size. The same expressions are generated for every mode and for
serialize and deserialize alike. -/
def fieldOffsets : Fields → Nat → List (Nat × Nat)
  | .nil, _ => []
  | .cons t _ rest, o => (o, o + packedSize t) :: fieldOffsets rest (o + packedSize t)

/-- The field list as a plain `List`. -/
def fieldsList : Fields → List (TypeRef × Option Endian)
  | .nil => []
  | .cons t a rest => (t, a) :: fieldsList rest

/-- The value list as a plain `List`. -/
def valuesList : Values → List Value
  | .nil => []
  | .cons v rest => v :: valuesList rest

/-- The field sizes in declaration order. -/
def sizesOf (fs : Fields) : List Nat :=
  (fieldsList fs).map (fun p => packedSize p.1)

/-- An all-zero buffer of length `n`. -/
def zeros (n : Nat) : List Nat :=
  List.replicate n 0

theorem toLeBytes_length (w v : Nat) : (toLeBytes w v).length = w := by
  induction w generalizing v with
  | zero => rfl
  | succ w ih => simp [toLeBytes, ih]

theorem toBeBytes_length (w v : Nat) : (toBeBytes w v).length = w := by
  simp [toBeBytes, toLeBytes_length]

theorem fromLeBytes_toLeBytes (w v : Nat) (h : v < 256 ^ w) :
    fromLeBytes (toLeBytes w v) = v := by
  induction w generalizing v with
  | zero =>
    simp only [pow_zero, Nat.lt_one_iff] at h
    simp [toLeBytes, fromLeBytes, h]
  | succ w ih =>
    have hdiv : v / 256 < 256 ^ w := by
      rw [Nat.div_lt_iff_lt_mul (by norm_num)]
      calc v < 256 ^ (w + 1) := h
        _ = 256 ^ w * 256 := by rw [pow_succ]
    simp only [toLeBytes, fromLeBytes, ih (v / 256) hdiv]
    omega

theorem fromBeBytes_toBeBytes (w v : Nat) (h : v < 256 ^ w) :
    fromBeBytes (toBeBytes w v) = v := by
  rw [fromBeBytes, toBeBytes, List.reverse_reverse]
  exact fromLeBytes_toLeBytes w v h

theorem writeRange_eq (dest src : List Nat) (o : Nat) :
    writeRange dest o src = (dest.take o ++ src) ++ dest.drop (o + src.length) := by
  simp [writeRange]

theorem writeRange_length (dest src : List Nat) (o : Nat)
    (h : o + src.length ≤ dest.length) :
    (writeRange dest o src).length = dest.length := by
  simp [writeRange]
  omega

theorem writeRange_take (dest src : List Nat) (o : Nat) (h : o ≤ dest.length) :
    (writeRange dest o src).take (o + src.length) = dest.take o ++ src := by
  rw [writeRange_eq]
  apply List.take_left'
  simp
  exact h

theorem writeRange_drop (dest src : List Nat) (o : Nat) (h : o ≤ dest.length) :
    (writeRange dest o src).drop (o + src.length) = dest.drop (o + src.length) := by
  rw [writeRange_eq]
  apply List.drop_left'
  simp
  exact h

theorem writeRange_drop_add (dest src : List Nat) (o r : Nat) (h : o ≤ dest.length) :
    (writeRange dest o src).drop (o + src.length + r) = dest.drop (o + src.length + r) := by
  have h1 := writeRange_drop dest src o h
  calc (writeRange dest o src).drop (o + src.length + r)
      = ((writeRange dest o src).drop (o + src.length)).drop r := by
        rw [List.drop_drop]
    _ = (dest.drop (o + src.length)).drop r := by rw [h1]
    _ = dest.drop (o + src.length + r) := by
        rw [List.drop_drop]

mutual
/-- A successful canonical encoding has exactly `packedSize` bytes. -/
theorem encBytes_length : ∀ (e : Endian) (t : TypeRef) (v : Value) (bs : List Nat),
    encBytes e t v = some bs → bs.length = packedSize t
  | e, .prim w, v, bs, hb => by
    cases v with
    | prim n =>
      cases e with
      | little =>
        simp only [encBytes, Option.some.injEq] at hb
        subst hb
        simp [packedSize, toLeBytes_length]
      | big =>
        simp only [encBytes, Option.some.injEq] at hb
        subst hb
        simp [packedSize, toBeBytes_length]
      | mixed =>
        simp only [encBytes] at hb
        split at hb
        · simp only [Option.some.injEq] at hb
          subst hb
          simp [packedSize, toBeBytes_length]
        · exact Option.noConfusion hb
      | native => exact Option.noConfusion hb
    | bytes bsv => cases e <;> exact Option.noConfusion hb
    | record vsv => cases e <;> exact Option.noConfusion hb
  | e, .array n, v, bs, hb => by
    cases v with
    | prim n' => cases e <;> exact Option.noConfusion hb
    | bytes bsv =>
      cases e with
      | native => exact Option.noConfusion hb
      | little =>
        simp only [encBytes] at hb
        split at hb
        · rename_i hn
          simp only [Option.some.injEq] at hb
          subst hb
          simpa [packedSize] using hn
        · exact Option.noConfusion hb
      | big =>
        simp only [encBytes] at hb
        split at hb
        · rename_i hn
          simp only [Option.some.injEq] at hb
          subst hb
          simpa [packedSize] using hn
        · exact Option.noConfusion hb
      | mixed =>
        simp only [encBytes] at hb
        split at hb
        · rename_i hn
          simp only [Option.some.injEq] at hb
          subst hb
          simpa [packedSize] using hn
        · exact Option.noConfusion hb
    | record vsv => cases e <;> exact Option.noConfusion hb
  | e, .composite fs, v, bs, hb => by
    cases v with
    | prim n' => cases e <;> exact Option.noConfusion hb
    | bytes bsv => cases e <;> exact Option.noConfusion hb
    | record vsv =>
      cases e with
      | native => exact Option.noConfusion hb
      | little =>
        simp only [encBytes] at hb
        simpa [packedSize] using encsBytes_length .little fs vsv bs hb
      | big =>
        simp only [encBytes] at hb
        simpa [packedSize] using encsBytes_length .big fs vsv bs hb
      | mixed =>
        simp only [encBytes] at hb
        simpa [packedSize] using encsBytes_length .mixed fs vsv bs hb

/-- A successful canonical field-list encoding has exactly `sizeFields` bytes. -/
theorem encsBytes_length : ∀ (e : Endian) (fs : Fields) (vs : Values) (bs : List Nat),
    encsBytes e fs vs = some bs → bs.length = sizeFields fs
  | e, .nil, vsv, bs, hb => by
    cases vsv with
    | nil =>
      simp only [encsBytes, Option.some.injEq] at hb
      subst hb
      simp [sizeFields]
    | cons v vs => exact Option.noConfusion hb
  | e, .cons t a fs, vsv, bs, hb => by
    cases vsv with
    | nil => exact Option.noConfusion hb
    | cons v vs =>
      simp only [encsBytes] at hb
      cases heff : eff e a with
      | none => rw [heff] at hb; exact Option.noConfusion hb
      | some e2 =>
        rw [heff] at hb
        simp only at hb
        cases hb1 : encBytes e2 t v with
        | none => rw [hb1] at hb; exact Option.noConfusion hb
        | some bs1 =>
          rw [hb1] at hb
          simp only at hb
          cases hb2 : encsBytes e fs vs with
          | none => rw [hb2] at hb; exact Option.noConfusion hb
          | some bs2 =>
            rw [hb2] at hb
            simp only [Option.some.injEq] at hb
            subst hb
            have h1 := encBytes_length e2 t v bs1 hb1
            have h2 := encsBytes_length e fs vs bs2 hb2
            simp [sizeFields, h1, h2]
end

mutual
/-- A successful buffer encode writes the canonical bytes at the front and
leaves the rest of the destination untouched. -/
theorem encode_canon : ∀ (e : Endian) (t : TypeRef) (v : Value) (dest out : List Nat),
    valueFits t v = true → encode e t v dest = some out →
    ∃ bs, encBytes e t v = some bs ∧ bs.length = packedSize t ∧
      out = bs ++ dest.drop (packedSize t)
  | e, .prim w, v, dest, out, hv, he => by
    cases v with
    | prim n =>
      cases e with
      | little =>
        simp only [encode] at he
        split at he
        · rename_i hlen
          simp only [Option.some.injEq] at he
          subst he
          refine ⟨toLeBytes w n, rfl, toLeBytes_length w n, ?_⟩
          rw [show packedSize (.prim w) = w from rfl,
            List.drop_eq_nil_of_le (le_of_eq hlen), List.append_nil]
        · exact Option.noConfusion he
      | big =>
        simp only [encode] at he
        split at he
        · rename_i hlen
          simp only [Option.some.injEq] at he
          subst he
          refine ⟨toBeBytes w n, rfl, toBeBytes_length w n, ?_⟩
          rw [show packedSize (.prim w) = w from rfl,
            List.drop_eq_nil_of_le (le_of_eq hlen), List.append_nil]
        · exact Option.noConfusion he
      | mixed =>
        simp only [encode] at he
        split at he
        · rename_i hw
          split at he
          · rename_i hlen
            simp only [Option.some.injEq] at he
            subst he
            refine ⟨toBeBytes w n, by simp [encBytes, hw], toBeBytes_length w n, ?_⟩
            rw [show packedSize (.prim w) = w from rfl,
              List.drop_eq_nil_of_le (le_of_eq hlen), List.append_nil]
          · exact Option.noConfusion he
        · exact Option.noConfusion he
      | native => exact Option.noConfusion he
    | bytes bsv => cases e <;> exact Option.noConfusion he
    | record vsv => cases e <;> exact Option.noConfusion he
  | e, .array n, v, dest, out, hv, he => by
    cases v with
    | prim n' => cases e <;> exact Option.noConfusion he
    | bytes bsv =>
      have hn : bsv.length = n := by
        simp only [valueFits, Bool.and_eq_true, beq_iff_eq] at hv
        exact hv.1
      have harr : ∀ e' : Endian, e' ≠ .native →
          encode e' (.array n) (.bytes bsv) dest = some out →
          ∃ bs, encBytes e' (.array n) (.bytes bsv) = some bs ∧
            bs.length = packedSize (.array n) ∧
            out = bs ++ dest.drop (packedSize (.array n)) := by
        intro e' hne he'
        have hred : encode e' (.array n) (.bytes bsv) dest =
            (if dest.length = bsv.length then some bsv else none) := by
          cases e' <;> simp only [encode] <;> try rfl
          exact absurd rfl hne
        rw [hred] at he'
        split at he'
        · rename_i hlen
          simp only [Option.some.injEq] at he'
          subst he'
          have hbd : encBytes e' (.array n) (.bytes bsv) = some bsv := by
            cases e' <;> simp only [encBytes, if_pos hn] <;> try rfl
            exact absurd rfl hne
          refine ⟨bsv, hbd, by simpa [packedSize] using hn, ?_⟩
          rw [show packedSize (.array n) = n from rfl,
            List.drop_eq_nil_of_le (by omega), List.append_nil]
        · exact Option.noConfusion he'
      cases e with
      | native => exact Option.noConfusion he
      | little => exact harr .little (by simp) he
      | big => exact harr .big (by simp) he
      | mixed => exact harr .mixed (by simp) he
    | record vsv => cases e <;> exact Option.noConfusion he
  | e, .composite fs, v, dest, out, hv, he => by
    cases v with
    | prim n' => cases e <;> exact Option.noConfusion he
    | bytes bsv => cases e <;> exact Option.noConfusion he
    | record vsv =>
      have hv' : valuesFit fs vsv = true := by simpa [valueFits] using hv
      have hcomp : ∀ e' : Endian, e' ≠ .native →
          encodeFields e' fs vsv dest 0 = some out →
          ∃ bs, encBytes e' (.composite fs) (.record vsv) = some bs ∧
            bs.length = packedSize (.composite fs) ∧
            out = bs ++ dest.drop (packedSize (.composite fs)) := by
        intro e' hne he'
        obtain ⟨bs, hb, hlen, hout⟩ := encodeFields_canon e' fs vsv dest 0 out hv' he'
        have hbd : encBytes e' (.composite fs) (.record vsv) = encsBytes e' fs vsv := by
          cases e' <;> try rfl
          exact absurd rfl hne
        refine ⟨bs, by rw [hbd, hb], by simpa [packedSize] using hlen, ?_⟩
        simpa [packedSize] using hout
      cases e with
      | native => exact Option.noConfusion he
      | little => exact hcomp .little (by simp) (by simpa [encode] using he)
      | big => exact hcomp .big (by simp) (by simpa [encode] using he)
      | mixed => exact hcomp .mixed (by simp) (by simpa [encode] using he)

/-- A successful field-walker encode splices the concatenated canonical field
encodings into `[o, o + sizeFields fs)` and leaves the rest of the
destination untouched. -/
theorem encodeFields_canon : ∀ (e : Endian) (fs : Fields) (vs : Values)
    (dest : List Nat) (o : Nat) (out : List Nat),
    valuesFit fs vs = true → encodeFields e fs vs dest o = some out →
    ∃ bs, encsBytes e fs vs = some bs ∧ bs.length = sizeFields fs ∧
      out = dest.take o ++ bs ++ dest.drop (o + sizeFields fs)
  | e, .nil, vsv, dest, o, out, hv, he => by
    cases vsv with
    | nil =>
      simp only [encodeFields, Option.some.injEq] at he
      subst he
      refine ⟨[], rfl, rfl, ?_⟩
      rw [show sizeFields .nil = 0 from rfl]
      simp
    | cons v vs => exact Option.noConfusion he
  | e, .cons t a fs, vsv, dest, o, out, hv, he => by
    cases vsv with
    | nil => exact Option.noConfusion he
    | cons v vs =>
      simp only [valuesFit, Bool.and_eq_true] at hv
      obtain ⟨hv1, hv2⟩ := hv
      simp only [encodeFields] at he
      cases heff : eff e a with
      | none => rw [heff] at he; exact Option.noConfusion he
      | some e2 =>
        rw [heff] at he
        simp only at he
        split at he
        · rename_i hle
          cases henc : encode e2 t v ((dest.drop o).take (packedSize t)) with
          | none => rw [henc] at he; exact Option.noConfusion he
          | some enc =>
            rw [henc] at he
            simp only at he
            have hslice_len : ((dest.drop o).take (packedSize t)).length = packedSize t := by
              simp only [List.length_take, List.length_drop]
              omega
            obtain ⟨bs1, hb1, hlen1, hout1⟩ :=
              encode_canon e2 t v ((dest.drop o).take (packedSize t)) enc hv1 henc
            rw [List.drop_eq_nil_of_le (le_of_eq hslice_len), List.append_nil] at hout1
            subst hout1
            obtain ⟨bs2, hb2, hlen2, hout2⟩ :=
              encodeFields_canon e fs vs (writeRange dest o enc) (o + packedSize t) out hv2 he
            have ho : o ≤ dest.length := by omega
            refine ⟨enc ++ bs2, ?_, ?_, ?_⟩
            · simp only [encsBytes]
              rw [heff]
              simp only
              rw [hb1]
              simp only
              rw [hb2]
            · simp only [List.length_append, sizeFields, hlen1, hlen2]
            · rw [hout2]
              rw [show sizeFields (Fields.cons t a fs) = packedSize t + sizeFields fs from rfl]
              rw [← hlen1]
              rw [writeRange_take dest enc o ho, writeRange_drop_add dest enc o (sizeFields fs) ho]
              simp [List.append_assoc, Nat.add_assoc]
        · exact Option.noConfusion he
end

mutual
/-- Decoding the canonical encoding of a well-typed value under the same mode
recovers the value. -/
theorem decode_canon : ∀ (e : Endian) (t : TypeRef) (v : Value) (bs : List Nat),
    valueFits t v = true → encBytes e t v = some bs → decode e t bs = some v
  | e, .prim w, v, bs, hv, hb => by
    cases v with
    | prim n =>
      have hn : n < 256 ^ w := by simpa [valueFits] using hv
      cases e with
      | little =>
        simp only [encBytes, Option.some.injEq] at hb
        subst hb
        simp [decode, toLeBytes_length, fromLeBytes_toLeBytes w n hn]
      | big =>
        simp only [encBytes, Option.some.injEq] at hb
        subst hb
        simp [decode, toBeBytes_length, fromBeBytes_toBeBytes w n hn]
      | mixed =>
        simp only [encBytes] at hb
        split at hb
        · rename_i hw
          simp only [Option.some.injEq] at hb
          subst hb
          subst hw
          have h256 : n < 256 := by simpa using hn
          simp [decode, toBeBytes_length, toBeBytes, toLeBytes, fromLeBytes]
          omega
        · exact Option.noConfusion hb
      | native => exact Option.noConfusion hb
    | bytes bsv => cases e <;> exact Option.noConfusion hb
    | record vsv => cases e <;> exact Option.noConfusion hb
  | e, .array n, v, bs, hv, hb => by
    cases v with
    | prim n' => cases e <;> exact Option.noConfusion hb
    | bytes bsv =>
      have hn : bsv.length = n := by
        simp only [valueFits, Bool.and_eq_true, beq_iff_eq] at hv
        exact hv.1
      have harr : ∀ e' : Endian, e' ≠ .native →
          encBytes e' (.array n) (.bytes bsv) = some bs →
          decode e' (.array n) bs = some (.bytes bsv) := by
        intro e' hne hb'
        have hred : encBytes e' (.array n) (.bytes bsv) =
            (if bsv.length = n then some bsv else none) := by
          cases e' <;> try rfl
          exact absurd rfl hne
        rw [hred, if_pos hn] at hb'
        simp only [Option.some.injEq] at hb'
        subst hb'
        have : decode e' (.array n) bsv =
            (if bsv.length = n then some (.bytes bsv) else none) := by
          cases e' <;> try rfl
          exact absurd rfl hne
        rw [this, if_pos hn]
      cases e with
      | native => exact Option.noConfusion hb
      | little => exact harr .little (by simp) hb
      | big => exact harr .big (by simp) hb
      | mixed => exact harr .mixed (by simp) hb
    | record vsv => cases e <;> exact Option.noConfusion hb
  | e, .composite fs, v, bs, hv, hb => by
    cases v with
    | prim n' => cases e <;> exact Option.noConfusion hb
    | bytes bsv => cases e <;> exact Option.noConfusion hb
    | record vsv =>
      have hv' : valuesFit fs vsv = true := by simpa [valueFits] using hv
      have hcomp : ∀ e' : Endian, e' ≠ .native →
          encsBytes e' fs vsv = some bs →
          decode e' (.composite fs) bs = some (.record vsv) := by
        intro e' hne hb'
        have hdf := decodeFields_canon e' fs vsv bs [] [] hv' hb'
        simp only [List.nil_append, List.append_nil, List.length_nil] at hdf
        have : decode e' (.composite fs) bs =
            Option.map Value.record (decodeFields e' fs bs 0) := by
          cases e' <;> try rfl
          exact absurd rfl hne
        rw [this, hdf]
        rfl
      have hbe : encBytes e (.composite fs) (.record vsv) = some bs := hb
      cases e with
      | native => exact Option.noConfusion hb
      | little => exact hcomp .little (by simp) (by simpa [encBytes] using hbe)
      | big => exact hcomp .big (by simp) (by simpa [encBytes] using hbe)
      | mixed => exact hcomp .mixed (by simp) (by simpa [encBytes] using hbe)

/-- Decoding the concatenated canonical field encodings, laid at offset
`pre.length` of a larger buffer, recovers the field values. -/
theorem decodeFields_canon : ∀ (e : Endian) (fs : Fields) (vs : Values)
    (bs pre post : List Nat),
    valuesFit fs vs = true → encsBytes e fs vs = some bs →
    decodeFields e fs (pre ++ bs ++ post) pre.length = some vs
  | e, .nil, vsv, bs, pre, post, hv, hb => by
    cases vsv with
    | nil => simp [decodeFields]
    | cons v vs => exact Option.noConfusion hb
  | e, .cons t a fs, vsv, bs, pre, post, hv, hb => by
    cases vsv with
    | nil => exact Option.noConfusion hb
    | cons v vs =>
      simp only [valuesFit, Bool.and_eq_true] at hv
      obtain ⟨hv1, hv2⟩ := hv
      simp only [encsBytes] at hb
      cases heff : eff e a with
      | none => rw [heff] at hb; exact Option.noConfusion hb
      | some e2 =>
        rw [heff] at hb
        simp only at hb
        cases hb1 : encBytes e2 t v with
        | none => rw [hb1] at hb; exact Option.noConfusion hb
        | some bs1 =>
          rw [hb1] at hb
          simp only at hb
          cases hb2 : encsBytes e fs vs with
          | none => rw [hb2] at hb; exact Option.noConfusion hb
          | some bs2 =>
            rw [hb2] at hb
            simp only [Option.some.injEq] at hb
            subst hb
            have hlen1 : bs1.length = packedSize t := encBytes_length e2 t v bs1 hb1
            simp only [decodeFields]
            rw [heff]
            simp only
            rw [if_pos (by simp only [List.length_append]; omega)]
            have hassoc : pre ++ (bs1 ++ bs2) ++ post = pre ++ (bs1 ++ (bs2 ++ post)) := by
              simp [List.append_assoc]
            have hslice : (((pre ++ (bs1 ++ bs2) ++ post).drop pre.length).take (packedSize t)) = bs1 := by
              rw [hassoc, List.drop_left, ← hlen1, List.take_left]
            rw [hslice, decode_canon e2 t v bs1 hv1 hb1]
            simp only
            have hoff : pre.length + packedSize t = (pre ++ bs1).length := by
              simp [hlen1]
            have hsrc : pre ++ (bs1 ++ bs2) ++ post = (pre ++ bs1) ++ bs2 ++ post := by
              simp [List.append_assoc]
            rw [hoff, hsrc, decodeFields_canon e fs vs bs2 (pre ++ bs1) post hv2 hb2]
            rfl
end

mutual
/-- On a destination of exactly `packedSize` bytes, encode succeeds and
returns the canonical bytes. -/
theorem encode_total : ∀ (e : Endian) (t : TypeRef) (v : Value) (bs dest : List Nat),
    valueFits t v = true → encBytes e t v = some bs →
    dest.length = packedSize t → encode e t v dest = some bs
  | e, .prim w, v, bs, dest, hv, hb, hd => by
    cases v with
    | prim n =>
      cases e with
      | little =>
        simp only [encBytes, Option.some.injEq] at hb
        subst hb
        simp only [encode]
        rw [if_pos (show dest.length = w from hd)]
      | big =>
        simp only [encBytes, Option.some.injEq] at hb
        subst hb
        simp only [encode]
        rw [if_pos (show dest.length = w from hd)]
      | mixed =>
        simp only [encBytes] at hb
        split at hb
        · rename_i hw
          simp only [Option.some.injEq] at hb
          subst hb
          simp only [encode]
          rw [if_pos hw, if_pos (show dest.length = w from hd)]
        · exact Option.noConfusion hb
      | native => exact Option.noConfusion hb
    | bytes bsv => cases e <;> exact Option.noConfusion hb
    | record vsv => cases e <;> exact Option.noConfusion hb
  | e, .array n, v, bs, dest, hv, hb, hd => by
    cases v with
    | prim n' => cases e <;> exact Option.noConfusion hb
    | bytes bsv =>
      have harr : ∀ e' : Endian, e' ≠ .native →
          encBytes e' (.array n) (.bytes bsv) = some bs →
          encode e' (.array n) (.bytes bsv) dest = some bs := by
        intro e' hne hb'
        have hredb : encBytes e' (.array n) (.bytes bsv) =
            (if bsv.length = n then some bsv else none) := by
          cases e' <;> try rfl
          exact absurd rfl hne
        rw [hredb] at hb'
        split at hb'
        · rename_i hn
          simp only [Option.some.injEq] at hb'
          subst hb'
          have hrede : encode e' (.array n) (.bytes bsv) dest =
              (if dest.length = bsv.length then some bsv else none) := by
            cases e' <;> try rfl
            exact absurd rfl hne
          rw [hrede, if_pos (by rw [hd, ← hn]; rfl)]
        · exact Option.noConfusion hb'
      cases e with
      | native => exact Option.noConfusion hb
      | little => exact harr .little (by simp) hb
      | big => exact harr .big (by simp) hb
      | mixed => exact harr .mixed (by simp) hb
    | record vsv => cases e <;> exact Option.noConfusion hb
  | e, .composite fs, v, bs, dest, hv, hb, hd => by
    cases v with
    | prim n' => cases e <;> exact Option.noConfusion hb
    | bytes bsv => cases e <;> exact Option.noConfusion hb
    | record vsv =>
      have hv' : valuesFit fs vsv = true := by simpa [valueFits] using hv
      have hd' : dest.length = sizeFields fs := by simpa [packedSize] using hd
      have hcomp : ∀ e' : Endian, e' ≠ .native →
          encsBytes e' fs vsv = some bs →
          encode e' (.composite fs) (.record vsv) dest = some bs := by
        intro e' hne hb'
        have h0 := encodeFields_total e' fs vsv bs dest 0 hv' hb' (by omega)
        have hdrop : dest.drop (0 + sizeFields fs) = [] :=
          List.drop_eq_nil_of_le (by omega)
        rw [hdrop, List.take_zero, List.nil_append, List.append_nil] at h0
        have hrede : encode e' (.composite fs) (.record vsv) dest =
            encodeFields e' fs vsv dest 0 := by
          cases e' <;> try rfl
          exact absurd rfl hne
        rw [hrede, h0]
      have hbe : encBytes e (.composite fs) (.record vsv) = some bs := hb
      cases e with
      | native => exact Option.noConfusion hb
      | little => exact hcomp .little (by simp) (by simpa [encBytes] using hbe)
      | big => exact hcomp .big (by simp) (by simpa [encBytes] using hbe)
      | mixed => exact hcomp .mixed (by simp) (by simpa [encBytes] using hbe)

/-- The field walker succeeds whenever the canonical encoding exists and the
buffer has room, splicing the canonical bytes at `[o, o + sizeFields fs)`. -/
theorem encodeFields_total : ∀ (e : Endian) (fs : Fields) (vs : Values)
    (bs dest : List Nat) (o : Nat),
    valuesFit fs vs = true → encsBytes e fs vs = some bs →
    o + sizeFields fs ≤ dest.length →
    encodeFields e fs vs dest o =
      some (dest.take o ++ bs ++ dest.drop (o + sizeFields fs))
  | e, .nil, vsv, bs, dest, o, hv, hb, hr => by
    cases vsv with
    | nil =>
      simp only [encsBytes, Option.some.injEq] at hb
      subst hb
      simp only [encodeFields]
      rw [show sizeFields .nil = 0 from rfl]
      simp
    | cons v vs => exact Option.noConfusion hb
  | e, .cons t a fs, vsv, bs, dest, o, hv, hb, hr => by
    cases vsv with
    | nil => exact Option.noConfusion hb
    | cons v vs =>
      simp only [valuesFit, Bool.and_eq_true] at hv
      obtain ⟨hv1, hv2⟩ := hv
      simp only [encsBytes] at hb
      cases heff : eff e a with
      | none => rw [heff] at hb; exact Option.noConfusion hb
      | some e2 =>
        rw [heff] at hb
        simp only at hb
        cases hb1 : encBytes e2 t v with
        | none => rw [hb1] at hb; exact Option.noConfusion hb
        | some bs1 =>
          rw [hb1] at hb
          simp only at hb
          cases hb2 : encsBytes e fs vs with
          | none => rw [hb2] at hb; exact Option.noConfusion hb
          | some bs2 =>
            rw [hb2] at hb
            simp only [Option.some.injEq] at hb
            subst hb
            have hsz : sizeFields (Fields.cons t a fs) = packedSize t + sizeFields fs := rfl
            have hlen1 : bs1.length = packedSize t := encBytes_length e2 t v bs1 hb1
            have hle : o + packedSize t ≤ dest.length := by omega
            have ho : o ≤ dest.length := by omega
            simp only [encodeFields]
            rw [heff]
            simp only
            rw [if_pos hle]
            have hslice_len : ((dest.drop o).take (packedSize t)).length = packedSize t := by
              simp only [List.length_take, List.length_drop]
              omega
            rw [encode_total e2 t v bs1 ((dest.drop o).take (packedSize t)) hv1 hb1 hslice_len]
            simp only
            have hwl : (writeRange dest o bs1).length = dest.length := by
              rw [writeRange_length dest bs1 o (by omega)]
            have hrec := encodeFields_total e fs vs bs2 (writeRange dest o bs1)
              (o + packedSize t) hv2 hb2 (by rw [hwl]; omega)
            rw [hrec]
            rw [← hlen1]
            rw [writeRange_take dest bs1 o ho,
              writeRange_drop_add dest bs1 o (sizeFields fs) ho]
            rw [hsz, ← hlen1]
            simp [List.append_assoc, Nat.add_assoc]
end

/-- The `i`-th generated byte range starts at the sum of the packed sizes of
the preceding fields and spans exactly the field's packed size. -/
theorem fieldOffsets_get : ∀ (fs : Fields) (o i : Nat) (t : TypeRef) (a : Option Endian),
    (fieldsList fs).get? i = some (t, a) →
    (fieldOffsets fs o).get? i =
      some (o + ((sizesOf fs).take i).sum, o + ((sizesOf fs).take i).sum + packedSize t)
  | .nil, o, i, t, a, h => by simp [fieldsList] at h
  | .cons t0 a0 rest, o, 0, t, a, h => by
    simp only [fieldsList, List.get?_cons_zero, Option.some.injEq, Prod.mk.injEq] at h
    obtain ⟨ht, ha⟩ := h
    subst ht
    simp [fieldOffsets, sizesOf, fieldsList]
  | .cons t0 a0 rest, o, i + 1, t, a, h => by
    simp only [fieldsList, List.get?_cons_succ] at h
    have ih := fieldOffsets_get rest (o + packedSize t0) i t a h
    simp only [fieldOffsets, List.get?_cons_succ]
    rw [ih]
    have hsum : ((sizesOf (Fields.cons t0 a0 rest)).take (i + 1)).sum
        = packedSize t0 + ((sizesOf rest).take i).sum := by
      simp [sizesOf, fieldsList]
    simp only [Option.some.injEq, Prod.mk.injEq, hsum]
    omega

/-- Every generated range lies inside `[o, o + sizeFields fs)` and is
well-formed. -/
theorem fieldOffsets_mem : ∀ (fs : Fields) (o : Nat) (p : Nat × Nat),
    p ∈ fieldOffsets fs o → o ≤ p.1 ∧ p.1 ≤ p.2 ∧ p.2 ≤ o + sizeFields fs
  | .nil, o, p, h => by simp [fieldOffsets] at h
  | .cons t a rest, o, p, h => by
    rw [show sizeFields (.cons t a rest) = packedSize t + sizeFields rest from rfl]
    simp only [fieldOffsets, List.mem_cons] at h
    cases h with
    | inl h =>
      subst h
      simp only
      omega
    | inr h =>
      have := fieldOffsets_mem rest (o + packedSize t) p h
      omega

/-- The generated byte ranges are pairwise non-overlapping, in declaration
order. -/
theorem fieldOffsets_pairwise : ∀ (fs : Fields) (o : Nat),
    List.Pairwise (fun p q : Nat × Nat => p.2 ≤ q.1) (fieldOffsets fs o)
  | .nil, o => by simp [fieldOffsets]
  | .cons t a rest, o => by
    simp only [fieldOffsets]
    refine List.Pairwise.cons ?_ (fieldOffsets_pairwise rest (o + packedSize t))
    intro q hq
    have := (fieldOffsets_mem rest (o + packedSize t) q hq).1
    simpa using this

/-- Consecutive generated ranges abut: each one ends where the next begins. -/
theorem fieldOffsets_chain : ∀ (fs : Fields) (o : Nat),
    List.Chain' (fun p q : Nat × Nat => p.2 = q.1) (fieldOffsets fs o)
  | .nil, o => by simp [fieldOffsets]
  | .cons t a rest, o => by
    cases rest with
    | nil => simp [fieldOffsets]
    | cons t2 a2 rest2 =>
      have ih := fieldOffsets_chain (Fields.cons t2 a2 rest2) (o + packedSize t)
      simp only [fieldOffsets] at ih ⊢
      exact List.chain'_cons.mpr ⟨rfl, ih⟩

/-- The generated ranges cover every byte position in `[o, o + sizeFields fs)`. -/
theorem fieldOffsets_cover : ∀ (fs : Fields) (o k : Nat),
    o ≤ k → k < o + sizeFields fs →
    ∃ p ∈ fieldOffsets fs o, p.1 ≤ k ∧ k < p.2
  | .nil, o, k, h1, h2 => by
    rw [show sizeFields .nil = 0 from rfl] at h2
    omega
  | .cons t a rest, o, k, h1, h2 => by
    rw [show sizeFields (.cons t a rest) = packedSize t + sizeFields rest from rfl] at h2
    by_cases hk : k < o + packedSize t
    · refine ⟨(o, o + packedSize t), by simp [fieldOffsets], by simp; omega⟩
    · obtain ⟨p, hp, hpk⟩ := fieldOffsets_cover rest (o + packedSize t) k (by omega) (by omega)
      exact ⟨p, by simp [fieldOffsets, hp], hpk⟩

/-- The field walker never modifies the bytes before its starting offset. -/
theorem encodeFields_take : ∀ (e : Endian) (fs : Fields) (vs : Values)
    (dest : List Nat) (o : Nat) (out : List Nat),
    encodeFields e fs vs dest o = some out → out.take o = dest.take o
  | e, .nil, vsv, dest, o, out, he => by
    cases vsv with
    | nil =>
      simp only [encodeFields, Option.some.injEq] at he
      subst he
      rfl
    | cons v vs => exact Option.noConfusion he
  | e, .cons t a fs, vsv, dest, o, out, he => by
    cases vsv with
    | nil => exact Option.noConfusion he
    | cons v vs =>
      simp only [encodeFields] at he
      cases heff : eff e a with
      | none => rw [heff] at he; exact Option.noConfusion he
      | some e2 =>
        rw [heff] at he
        simp only at he
        split at he
        · rename_i hle
          cases henc : encode e2 t v ((dest.drop o).take (packedSize t)) with
          | none => rw [henc] at he; exact Option.noConfusion he
          | some enc =>
            rw [henc] at he
            simp only at he
            have ih := encodeFields_take e fs vs (writeRange dest o enc) (o + packedSize t) out he
            have hmin : min o (o + packedSize t) = o := by omega
            have ho : o ≤ dest.length := by omega
            have htl : (dest.take o).length = o := by
              simp only [List.length_take]
              omega
            calc out.take o
                = (out.take (o + packedSize t)).take o := by rw [List.take_take, hmin]
              _ = ((writeRange dest o enc).take (o + packedSize t)).take o := by rw [ih]
              _ = (writeRange dest o enc).take o := by rw [List.take_take, hmin]
              _ = dest.take o := by
                  rw [writeRange_eq, List.take_append_eq_append_take,
                    List.take_append_eq_append_take]
                  have h1 : o - ((dest.take o).length + enc.length) = 0 := by omega
                  have h2 : (dest.take o).take o = dest.take o := by
                    rw [List.take_take]
                    simp
                  simp [htl, h1, h2]
        · exact Option.noConfusion he

/-- Encode writes each field's canonical bytes at exactly that field's
generated byte range, under the per-field resolved order. -/
theorem encodeFields_slices : ∀ (e : Endian) (fs : Fields) (vs : Values)
    (dest : List Nat) (o : Nat) (out : List Nat) (i : Nat) (t : TypeRef)
    (a : Option Endian) (v : Value) (b en : Nat),
    valuesFit fs vs = true →
    encodeFields e fs vs dest o = some out →
    (fieldsList fs).get? i = some (t, a) →
    (valuesList vs).get? i = some v →
    (fieldOffsets fs o).get? i = some (b, en) →
    ∃ e2 bsi, eff e a = some e2 ∧ encBytes e2 t v = some bsi ∧
      (out.drop b).take (en - b) = bsi
  | e, .nil, vsv, dest, o, out, i, t, a, v, b, en, hv, he, hf, hval, hoff => by
    simp [fieldsList] at hf
  | e, .cons t0 a0 fs, vsv, dest, o, out, i, t, a, v, b, en, hv, he, hf, hval, hoff => by
    cases vsv with
    | nil => exact Option.noConfusion he
    | cons v0 vs =>
      simp only [valuesFit, Bool.and_eq_true] at hv
      obtain ⟨hv1, hv2⟩ := hv
      simp only [encodeFields] at he
      cases heff : eff e a0 with
      | none => rw [heff] at he; exact Option.noConfusion he
      | some e2 =>
        rw [heff] at he
        simp only at he
        split at he
        · rename_i hle
          cases henc : encode e2 t0 v0 ((dest.drop o).take (packedSize t0)) with
          | none => rw [henc] at he; exact Option.noConfusion he
          | some enc =>
            rw [henc] at he
            simp only at he
            cases i with
            | zero =>
              simp only [fieldsList, List.get?_cons_zero, Option.some.injEq,
                Prod.mk.injEq] at hf
              obtain ⟨hft, hfa⟩ := hf
              subst hft
              subst hfa
              simp only [valuesList, List.get?_cons_zero, Option.some.injEq] at hval
              subst hval
              simp only [fieldOffsets, List.get?_cons_zero, Option.some.injEq,
                Prod.mk.injEq] at hoff
              obtain ⟨hob, hoe⟩ := hoff
              subst hob
              subst hoe
              have hslice_len : ((dest.drop o).take (packedSize t0)).length = packedSize t0 := by
                simp only [List.length_take, List.length_drop]
                omega
              obtain ⟨bs1, hb1, hlen1, hout1⟩ :=
                encode_canon e2 t0 v0 ((dest.drop o).take (packedSize t0)) enc hv1 henc
              rw [List.drop_eq_nil_of_le (le_of_eq hslice_len), List.append_nil] at hout1
              subst hout1
              refine ⟨e2, enc, heff, hb1, ?_⟩
              have htake := encodeFields_take e fs vs (writeRange dest o enc)
                (o + packedSize t0) out he
              have ho : o ≤ dest.length := by omega
              have hd : o + packedSize t0 - o = packedSize t0 := by omega
              have hlen' : (dest.take o ++ enc).length = o + packedSize t0 := by
                simp only [List.length_append, List.length_take, hlen1]
                omega
              have htl : (dest.take o).length = o := by
                simp only [List.length_take]
                omega
              calc (out.drop o).take (o + packedSize t0 - o)
                  = (out.take (o + packedSize t0)).drop o := by
                    rw [List.drop_take]
                _ = ((writeRange dest o enc).take (o + packedSize t0)).drop o := by
                    rw [htake]
                _ = (dest.take o ++ enc).drop o := by
                    rw [← hlen1, writeRange_take dest enc o ho]
                _ = enc := by
                    rw [List.drop_append_eq_append_drop]
                    simp [htl, List.drop_eq_nil_of_le (le_of_eq htl)]
            | succ i =>
              simp only [fieldsList, List.get?_cons_succ] at hf
              simp only [valuesList, List.get?_cons_succ] at hval
              simp only [fieldOffsets, List.get?_cons_succ] at hoff
              exact encodeFields_slices e fs vs (writeRange dest o enc)
                (o + packedSize t0) out i t a v b en hv2 he hf hval hoff
        · exact Option.noConfusion he

/-- Decode reads each field's value from exactly that field's generated byte
range, under the per-field resolved order. -/
theorem decodeFields_slices : ∀ (e : Endian) (fs : Fields) (src : List Nat)
    (o : Nat) (vs : Values) (i : Nat) (t : TypeRef) (a : Option Endian) (b en : Nat),
    decodeFields e fs src o = some vs →
    (fieldsList fs).get? i = some (t, a) →
    (fieldOffsets fs o).get? i = some (b, en) →
    ∃ e2 v, eff e a = some e2 ∧ (valuesList vs).get? i = some v ∧
      decode e2 t ((src.drop b).take (en - b)) = some v
  | e, .nil, src, o, vs, i, t, a, b, en, hd, hf, hoff => by
    simp [fieldsList] at hf
  | e, .cons t0 a0 fs, src, o, vs, i, t, a, b, en, hd, hf, hoff => by
    simp only [decodeFields] at hd
    cases heff : eff e a0 with
    | none => rw [heff] at hd; exact Option.noConfusion hd
    | some e2 =>
      rw [heff] at hd
      simp only at hd
      split at hd
      · rename_i hle
        cases hdec : decode e2 t0 ((src.drop o).take (packedSize t0)) with
        | none => rw [hdec] at hd; exact Option.noConfusion hd
        | some v0 =>
          rw [hdec] at hd
          simp only at hd
          cases hrest : decodeFields e fs src (o + packedSize t0) with
          | none => rw [hrest] at hd; exact Option.noConfusion hd
          | some vs' =>
            rw [hrest] at hd
            simp only [Option.map, Option.some.injEq] at hd
            subst hd
            cases i with
            | zero =>
              simp only [fieldsList, List.get?_cons_zero, Option.some.injEq,
                Prod.mk.injEq] at hf
              obtain ⟨hft, hfa⟩ := hf
              subst hft
              subst hfa
              simp only [fieldOffsets, List.get?_cons_zero, Option.some.injEq,
                Prod.mk.injEq] at hoff
              obtain ⟨hob, hoe⟩ := hoff
              subst hob
              subst hoe
              refine ⟨e2, v0, heff, rfl, ?_⟩
              have hdd : o + packedSize t0 - o = packedSize t0 := by omega
              rw [hdd]
              exact hdec
            | succ i =>
              simp only [fieldsList, List.get?_cons_succ] at hf
              simp only [fieldOffsets, List.get?_cons_succ] at hoff
              obtain ⟨e3, v, h1, h2, h3⟩ :=
                decodeFields_slices e fs src (o + packedSize t0) vs' i t a b en hrest hf hoff
              exact ⟨e3, v, h1, h2, h3⟩
      · exact Option.noConfusion hd

/-- The test schema `{a: u16, b: i16}` of `test_codec_2bytes_primitives`. -/
def pairSchema : TypeRef :=
  .composite (.cons (.prim 2) none (.cons (.prim 2) none .nil))

/-- The test value `{a = 0x2F, b = 0x2F00}`. -/
def pairValue : Value :=
  .record (.cons (.prim 0x2F) (.cons (.prim 0x2F00) .nil))

/-- The doc-example Mixed schema
`{cmd: u16 le, value: i64 little, timestamp: i128 big}`. -/
def requestSchema : TypeRef :=
  .composite (.cons (.prim 2) (some .little)
    (.cons (.prim 8) (some .little)
      (.cons (.prim 16) (some .big) .nil)))

/-- The doc-example value `{cmd = 0x44, value = 74, timestamp = 0xFFFFFFFF00000000}`. -/
def requestValue : Value :=
  .record (.cons (.prim 0x44) (.cons (.prim 74) (.cons (.prim 0xFFFFFFFF00000000) .nil)))

/-- A field list with packed sizes `[2, 2, 4]`. -/
def sizes224 : Fields :=
  .cons (.prim 2) none (.cons (.prim 2) none (.cons (.prim 4) none .nil))

/-- A one-field struct `{a: u16}`. -/
def singleU16 : TypeRef := .composite (.cons (.prim 2) none .nil)

/-- Concatenation of field lists. -/
def appendFields : Fields → Fields → Fields
  | .nil, gs => gs
  | .cons t a fs, gs => .cons t a (appendFields fs gs)

/-- The sum of the field sizes of a field list. -/
theorem sizeFields_eq_sum : ∀ fs : Fields,
    sizeFields fs = ((fieldsList fs).map (fun p => packedSize p.1)).sum
  | .nil => rfl
  | .cons t a rest => by
    simp only [fieldsList, List.map_cons, List.sum_cons]
    rw [show sizeFields (.cons t a rest) = packedSize t + sizeFields rest from rfl,
      sizeFields_eq_sum rest]

/-- C1: for every supported schema, every value of its type and every mode,
decoding the bytes produced by encoding the value into a buffer of length
exactly `PACKED_LEN` yields the original value. -/
theorem roundtrip_decode_encode (e : Endian) (t : TypeRef) (v : Value)
    (dest out : List Nat) (hv : valueFits t v = true)
    (hd : dest.length = packedSize t)
    (he : encode e t v dest = some out) :
    decode e t out = some v := by
  obtain ⟨bs, hb, hlen, hout⟩ := encode_canon e t v dest out hv he
  rw [hout, List.drop_eq_nil_of_le (le_of_eq hd), List.append_nil]
  exact decode_canon e t v bs hv hb

/-- Witness for C1 at the `{a: u16, b: i16}` test schema under LE. -/
theorem roundtrip_decode_encode_witness :
    valueFits pairSchema pairValue = true ∧
    (zeros 4).length = packedSize pairSchema ∧
    encode .little pairSchema pairValue (zeros 4) = some [47, 0, 0, 47] ∧
    decode .little pairSchema [47, 0, 0, 47] = some pairValue :=
  ⟨by decide, by decide, by decide,
    roundtrip_decode_encode .little pairSchema pairValue (zeros 4) [47, 0, 0, 47]
      (by decide) (by decide) (by decide)⟩

/-- C2: the packed size of a struct is the sum of its fields' packed sizes
in declaration order (at any nesting depth, since the fields' own sizes are
computed by the same function), and an empty struct has packed size `0`. -/
theorem packedSize_additive :
    (∀ fs : Fields, packedSize (.composite fs) =
      ((fieldsList fs).map (fun p => packedSize p.1)).sum) ∧
    packedSize (.composite .nil) = 0 :=
  ⟨fun fs => sizeFields_eq_sum fs, rfl⟩

/-- C4 evaluation: the derived struct encoder does not panic on an oversized
destination buffer. For `{a: u16}` (packed size 2) and a 3-byte destination
`[9, 9, 9]`, encode succeeds, writes only bytes `[0, 2)` and leaves the
trailing `9` unwritten, in both LE and BE modes. -/
theorem encode_oversized_no_panic :
    packedSize singleU16 = 2 ∧
    encode .little singleU16 (.record (.cons (.prim 5) .nil)) [9, 9, 9] =
      some [5, 0, 9] ∧
    encode .big singleU16 (.record (.cons (.prim 5) .nil)) [9, 9, 9] =
      some [0, 5, 9] :=
  ⟨rfl, by decide, by decide⟩

/-- C5: fixed byte arrays (`[u8; N]`, `N ∈ 1..=32`) and single-byte
primitives encode byte-identically (a verbatim copy) under LE, BE and Mixed,
and decode to the same value from the same bytes under all three modes. -/
theorem array_order_invariance (n : Nat) (h1 : 1 ≤ n) (h2 : n ≤ 32) :
    (∀ (bs dest : List Nat),
      encode .little (.array n) (.bytes bs) dest = encode .big (.array n) (.bytes bs) dest ∧
      encode .mixed (.array n) (.bytes bs) dest = encode .big (.array n) (.bytes bs) dest ∧
      (dest.length = bs.length → encode .big (.array n) (.bytes bs) dest = some bs)) ∧
    (∀ src : List Nat,
      decode .little (.array n) src = decode .big (.array n) src ∧
      decode .mixed (.array n) src = decode .big (.array n) src) ∧
    (∀ (v : Nat) (dest : List Nat),
      encode .little (.prim 1) (.prim v) dest = encode .big (.prim 1) (.prim v) dest ∧
      encode .mixed (.prim 1) (.prim v) dest = encode .big (.prim 1) (.prim v) dest) ∧
    (∀ src : List Nat,
      decode .little (.prim 1) src = decode .big (.prim 1) src ∧
      decode .mixed (.prim 1) src = decode .big (.prim 1) src) := by
  refine ⟨?_, ?_, ?_, ?_⟩
  · intro bs dest
    refine ⟨rfl, rfl, fun h => ?_⟩
    simp only [encode]
    rw [if_pos h]
  · intro src
    exact ⟨rfl, rfl⟩
  · intro v dest
    exact ⟨rfl, rfl⟩
  · intro src
    rcases src with _ | ⟨b, _ | ⟨c, tl⟩⟩ <;> exact ⟨rfl, rfl⟩

/-- Witness for C5 at `[u8; 4]` and a concrete byte value. -/
theorem array_order_invariance_witness :
    ((1 ≤ 4 ∧ 4 ≤ 32) ∧
      encode .mixed (.array 4) (.bytes [1, 2, 3, 4]) (zeros 4) =
        encode .big (.array 4) (.bytes [1, 2, 3, 4]) (zeros 4)) ∧
    decode .mixed (.prim 1) [0x2F] = decode .big (.prim 1) [0x2F] :=
  ⟨⟨⟨by decide, by decide⟩,
    ((array_order_invariance 4 (by decide) (by decide)).1 [1, 2, 3, 4] (zeros 4)).2.1⟩,
    ((array_order_invariance 1 (by decide) (by decide)).2.2.2 [0x2F]).2⟩

/-- C6: for `{a: u16, b: i16}` with `{a = 0x2F, b = 0x2F00}`, LE encoding
into any 4-byte buffer yields exactly `[47, 0, 0, 47]`, BE yields exactly
`[0, 47, 47, 0]`, and decoding each back under the matching mode reproduces
the value. -/
theorem concrete_pair_scenario :
    packedSize pairSchema = 4 ∧
    (∀ dest : List Nat, dest.length = 4 →
      encode .little pairSchema pairValue dest = some [47, 0, 0, 47] ∧
      encode .big pairSchema pairValue dest = some [0, 47, 47, 0]) ∧
    decode .little pairSchema [47, 0, 0, 47] = some pairValue ∧
    decode .big pairSchema [0, 47, 47, 0] = some pairValue := by
  refine ⟨rfl, ?_, by decide, by decide⟩
  intro dest hd
  constructor
  · exact encode_total .little pairSchema pairValue [47, 0, 0, 47] dest
      (by decide) (by decide) hd
  · exact encode_total .big pairSchema pairValue [0, 47, 47, 0] dest
      (by decide) (by decide) hd

/-- Witness for C6 at the zero-filled 4-byte buffer. -/
theorem concrete_pair_scenario_witness :
    (zeros 4).length = 4 ∧
    encode .little pairSchema pairValue (zeros 4) = some [47, 0, 0, 47] :=
  ⟨by decide, (concrete_pair_scenario.2.1 (zeros 4) (by decide)).1⟩

/-- C3: in every mode, encode and decode assign field `i` the byte range
`[o, o + len)` with `o` the sum of the preceding fields' packed sizes; the
ranges are pairwise non-overlapping, abut contiguously, cover the buffer,
and for sizes `[2, 2, 4]` are exactly `[0,2), [2,4), [4,8)`. The range
arithmetic does not depend on the mode, and the per-range encode/decode
facts hold for every mode `e`. -/
theorem offset_determinism :
    (∀ (fs : Fields) (o i : Nat) (t : TypeRef) (a : Option Endian),
      (fieldsList fs).get? i = some (t, a) →
      (fieldOffsets fs o).get? i =
        some (o + ((sizesOf fs).take i).sum,
          o + ((sizesOf fs).take i).sum + packedSize t)) ∧
    (∀ (fs : Fields) (o : Nat),
      List.Pairwise (fun p q : Nat × Nat => p.2 ≤ q.1) (fieldOffsets fs o)) ∧
    (∀ (fs : Fields) (o : Nat),
      List.Chain' (fun p q : Nat × Nat => p.2 = q.1) (fieldOffsets fs o)) ∧
    (∀ (fs : Fields) (o k : Nat), o ≤ k → k < o + sizeFields fs →
      ∃ p ∈ fieldOffsets fs o, p.1 ≤ k ∧ k < p.2) ∧
    fieldOffsets sizes224 0 = [(0, 2), (2, 4), (4, 8)] ∧
    (∀ (e : Endian) (fs : Fields) (vs : Values) (dest : List Nat) (o : Nat)
      (out : List Nat) (i : Nat) (t : TypeRef) (a : Option Endian) (v : Value)
      (b en : Nat),
      valuesFit fs vs = true →
      encodeFields e fs vs dest o = some out →
      (fieldsList fs).get? i = some (t, a) →
      (valuesList vs).get? i = some v →
      (fieldOffsets fs o).get? i = some (b, en) →
      ∃ e2 bsi, eff e a = some e2 ∧ encBytes e2 t v = some bsi ∧
        (out.drop b).take (en - b) = bsi) ∧
    (∀ (e : Endian) (fs : Fields) (src : List Nat) (o : Nat) (vs : Values)
      (i : Nat) (t : TypeRef) (a : Option Endian) (b en : Nat),
      decodeFields e fs src o = some vs →
      (fieldsList fs).get? i = some (t, a) →
      (fieldOffsets fs o).get? i = some (b, en) →
      ∃ e2 v, eff e a = some e2 ∧ (valuesList vs).get? i = some v ∧
        decode e2 t ((src.drop b).take (en - b)) = some v) :=
  ⟨fieldOffsets_get, fieldOffsets_pairwise, fieldOffsets_chain, fieldOffsets_cover,
    by decide, encodeFields_slices, decodeFields_slices⟩

/-- Witness for C3: the second field of the `[2, 2, 4]` schema occupies
`[2, 4)`, i.e. begins at the sum of the sizes before it. -/
theorem offset_determinism_witness :
    (fieldsList sizes224).get? 1 = some (.prim 2, none) ∧
    (fieldOffsets sizes224 0).get? 1 =
      some (0 + ((sizesOf sizes224).take 1).sum,
        0 + ((sizesOf sizes224).take 1).sum + packedSize (.prim 2)) :=
  ⟨by decide, offset_determinism.1 sizes224 0 1 (.prim 2) none (by decide)⟩

/-- C7: Mixed-mode encode of the doc-example request writes one contiguous
26-byte buffer (2 + 8 + 16) with `cmd` and `value` little-endian and
`timestamp` big-endian in their byte ranges. -/
theorem mixed_override_scenario :
    packedSize requestSchema = 26 ∧
    (∀ dest : List Nat, dest.length = 26 →
      encode .mixed requestSchema requestValue dest =
        some (toLeBytes 2 0x44 ++ (toLeBytes 8 74 ++ toBeBytes 16 0xFFFFFFFF00000000))) ∧
    encode .mixed requestSchema requestValue (zeros 26) =
      some [0x44, 0, 74, 0, 0, 0, 0, 0, 0, 0, 0, 0, 0, 0, 0, 0, 0, 0,
        0xFF, 0xFF, 0xFF, 0xFF, 0, 0, 0, 0] := by
  refine ⟨rfl, ?_, by decide⟩
  intro dest hd
  exact encode_total .mixed requestSchema requestValue
    (toLeBytes 2 0x44 ++ (toLeBytes 8 74 ++ toBeBytes 16 0xFFFFFFFF00000000)) dest
    (by decide) (by decide) hd

/-- Witness for C7 at the zero-filled 26-byte buffer. -/
theorem mixed_override_scenario_witness :
    (zeros 26).length = 26 ∧
    encode .mixed requestSchema requestValue (zeros 26) =
      some (toLeBytes 2 0x44 ++ (toLeBytes 8 74 ++ toBeBytes 16 0xFFFFFFFF00000000)) :=
  ⟨by decide, mixed_override_scenario.2.1 (zeros 26) (by decide)⟩

/-- C8: an unannotated 1-byte primitive field in Mixed mode encodes as
big-endian (`to_be_bytes`), its Mixed decode agrees with its big-endian
decode on every source slice (for one byte `from_le_bytes` and
`from_be_bytes` coincide), and Mixed encode followed by Mixed decode is the
identity on the byte. -/
theorem mixed_single_byte_symmetric (v : Nat) (hv : v < 256) :
    eff .mixed none = some .mixed ∧
    (∀ dest : List Nat,
      encode .mixed (.prim 1) (.prim v) dest = encode .big (.prim 1) (.prim v) dest) ∧
    (∀ src : List Nat,
      decode .mixed (.prim 1) src = decode .big (.prim 1) src) ∧
    (∀ dest out : List Nat,
      encode .mixed (.prim 1) (.prim v) dest = some out →
      decode .mixed (.prim 1) out = some (.prim v)) := by
  refine ⟨rfl, fun dest => rfl, ?_, ?_⟩
  · intro src
    rcases src with _ | ⟨b, _ | ⟨c, tl⟩⟩ <;> rfl
  · intro dest out he
    have he' : (if dest.length = 1 then some (toBeBytes 1 v) else none) = some out := he
    split at he'
    · simp only [Option.some.injEq] at he'
      subst he'
      show (if (1 : Nat) = 1 then
        if (toBeBytes 1 v).length = 1 then some (Value.prim (fromLeBytes (toBeBytes 1 v)))
        else none else none) = some (Value.prim v)
      rw [if_pos rfl, if_pos (toBeBytes_length 1 v)]
      simp only [toBeBytes, toLeBytes, List.reverse_cons, List.reverse_nil,
        List.nil_append, fromLeBytes, Option.some.injEq, Value.prim.injEq]
      omega
    · exact Option.noConfusion he'

/-- Witness for C8 at the byte `0x2F`. -/
theorem mixed_single_byte_symmetric_witness :
    ((0x2F : Nat) < 256 ∧
      decode .mixed (.prim 1) [0x2F] = decode .big (.prim 1) [0x2F]) ∧
    decode .mixed (.prim 1) [0x2F] = some (.prim 0x2F) :=
  ⟨⟨by decide, (mixed_single_byte_symmetric 0x2F (by decide)).2.2.1 [0x2F]⟩,
    (mixed_single_byte_symmetric 0x2F (by decide)).2.2.2 [0x2F] [0x2F] (by decide)⟩

/-- In Mixed mode a field list containing an unannotated primitive wider
than one byte does not pass schema build (the generated code needs an ME
impl that `src/lib.rs` does not provide). -/
theorem wideFields_not_me : ∀ (pre suf : Fields) (w : Nat), 1 < w →
    fieldsEncodableME (appendFields pre (.cons (.prim w) none suf)) = false
  | .nil, suf, w, hw => by
    simp only [appendFields, fieldsEncodableME, encodableME]
    have h1 : (w == 1) = false := by
      simp only [beq_eq_false_iff_ne, ne_eq]
      omega
    rw [h1, Bool.false_and]
  | .cons t a rest, suf, w, hw => by
    simp only [appendFields, fieldsEncodableME]
    rw [wideFields_not_me rest suf w hw, Bool.and_false]

/-- The Mixed encoder of any field list containing an unannotated wide
primitive returns no bytes on any value, buffer and offset. -/
theorem encodeFieldsME_wide_none : ∀ (pre suf : Fields) (w : Nat), 1 < w →
    ∀ (vs : Values) (dest : List Nat) (o : Nat),
    encodeFields .mixed (appendFields pre (.cons (.prim w) none suf)) vs dest o = none
  | .nil, suf, w, hw, vs, dest, o => by
    cases vs with
    | nil => rfl
    | cons v vs' =>
      simp only [appendFields, encodeFields, eff]
      by_cases hle : o + packedSize (.prim w) ≤ dest.length
      · rw [if_pos hle]
        have hne : encode .mixed (.prim w) v
            ((dest.drop o).take (packedSize (.prim w))) = none := by
          cases v with
          | prim n =>
            simp only [encode]
            rw [if_neg (by omega)]
          | bytes bsv => rfl
          | record vsv => rfl
        rw [hne]
      · rw [if_neg hle]
  | .cons t a rest, suf, w, hw, vs, dest, o => by
    cases vs with
    | nil => rfl
    | cons v vs' =>
      simp only [appendFields, encodeFields]
      cases heff : eff .mixed a with
      | none => rfl
      | some e2 =>
        simp only
        by_cases hle : o + packedSize t ≤ dest.length
        · rw [if_pos hle]
          cases henc : encode e2 t v ((dest.drop o).take (packedSize t)) with
          | none => rfl
          | some enc =>
            simp only
            exact encodeFieldsME_wide_none rest suf w hw vs'
              (writeRange dest o enc) (o + packedSize t)
        · rw [if_neg hle]

/-- The Mixed decoder of any field list containing an unannotated wide
primitive returns no value on any source and offset. -/
theorem decodeFieldsME_wide_none : ∀ (pre suf : Fields) (w : Nat), 1 < w →
    ∀ (src : List Nat) (o : Nat),
    decodeFields .mixed (appendFields pre (.cons (.prim w) none suf)) src o = none
  | .nil, suf, w, hw, src, o => by
    simp only [appendFields, decodeFields, eff]
    by_cases hle : o + packedSize (.prim w) ≤ src.length
    · rw [if_pos hle]
      have hne : decode .mixed (.prim w)
          ((src.drop o).take (packedSize (.prim w))) = none := by
        simp only [decode]
        rw [if_neg (by omega)]
      rw [hne]
    · rw [if_neg hle]
  | .cons t a rest, suf, w, hw, src, o => by
    simp only [appendFields, decodeFields]
    cases heff : eff .mixed a with
    | none => rfl
    | some e2 =>
      simp only
      by_cases hle : o + packedSize t ≤ src.length
      · rw [if_pos hle]
        cases hdec : decode e2 t ((src.drop o).take (packedSize t)) with
        | none => rfl
        | some v0 =>
          simp only
          rw [decodeFieldsME_wide_none rest suf w hw src (o + packedSize t)]
          rfl
      · rw [if_neg hle]

/-- C9: a Mixed-mode struct containing an unannotated primitive field wider
than one byte is rejected at schema-build time (the generated code does not
compile), and is never encoded or decoded with any default byte order: both
Mixed codecs reject every input. -/
theorem mixed_wide_prim_rejected (w : Nat) (hw : 1 < w) (pre suf : Fields) :
    encodableME (.composite (appendFields pre (.cons (.prim w) none suf))) = false ∧
    (∀ (v : Value) (dest : List Nat),
      encode .mixed (.composite (appendFields pre (.cons (.prim w) none suf))) v dest
        = none) ∧
    (∀ src : List Nat,
      decode .mixed (.composite (appendFields pre (.cons (.prim w) none suf))) src
        = none) := by
  refine ⟨?_, ?_, ?_⟩
  · simpa [encodableME] using wideFields_not_me pre suf w hw
  · intro v dest
    cases v with
    | prim n => rfl
    | bytes bsv => rfl
    | record vsv =>
      simp only [encode]
      exact encodeFieldsME_wide_none pre suf w hw vsv dest 0
  · intro src
    simp only [decode]
    rw [decodeFieldsME_wide_none pre suf w hw src 0]
    rfl

/-- Witness for C9 at an unannotated bare `u16` field. -/
theorem mixed_wide_prim_rejected_witness :
    ((1 : Nat) < 2 ∧
      encodableME (.composite (appendFields .nil (.cons (.prim 2) none .nil))) = false) ∧
    encode .mixed (.composite (appendFields .nil (.cons (.prim 2) none .nil)))
      (.record (.cons (.prim 5) .nil)) (zeros 2) = none :=
  ⟨⟨by decide, (mixed_wide_prim_rejected 2 (by decide) .nil .nil).1⟩,
    (mixed_wide_prim_rejected 2 (by decide) .nil .nil).2.1
      (.record (.cons (.prim 5) .nil)) (zeros 2)⟩

/-- C10: a successful encode into a destination of exactly `PACKED_LEN`
bytes produces the canonical bytes of the value: the result is a function of
the value alone, so two encodes of the same value into buffers with
different prior contents coincide (every destination byte is overwritten). -/
theorem encode_dest_independent (e : Endian) (t : TypeRef) (v : Value)
    (d1 d2 o1 o2 : List Nat) (hv : valueFits t v = true)
    (h1l : d1.length = packedSize t) (h2l : d2.length = packedSize t)
    (h1 : encode e t v d1 = some o1) (h2 : encode e t v d2 = some o2) :
    encBytes e t v = some o1 ∧ o1 = o2 ∧ o1.length = packedSize t := by
  obtain ⟨bs, hb, hlen, hout⟩ := encode_canon e t v d1 o1 hv h1
  obtain ⟨bs', hb', hlen', hout'⟩ := encode_canon e t v d2 o2 hv h2
  rw [hb] at hb'
  injection hb' with hbb
  subst hbb
  rw [List.drop_eq_nil_of_le (le_of_eq h1l), List.append_nil] at hout
  rw [List.drop_eq_nil_of_le (le_of_eq h2l), List.append_nil] at hout'
  subst hout
  subst hout'
  exact ⟨hb, rfl, hlen⟩

/-- Witness for C10: encoding the pair value over a dirty buffer and over a
zeroed buffer gives the same bytes. -/
theorem encode_dest_independent_witness :
    valueFits pairSchema pairValue = true ∧
    encode .little pairSchema pairValue [9, 9, 9, 9] = some [47, 0, 0, 47] ∧
    encode .little pairSchema pairValue (zeros 4) = some [47, 0, 0, 47] ∧
    encBytes .little pairSchema pairValue = some [47, 0, 0, 47] :=
  ⟨by decide, by decide, by decide,
    (encode_dest_independent .little pairSchema pairValue [9, 9, 9, 9] (zeros 4)
      [47, 0, 0, 47] [47, 0, 0, 47] (by decide) (by decide) (by decide)
      (by decide) (by decide)).1⟩

end EndianCodec
